import Mathlib

/-!
# Verification of the version-resolution and upgrade-orchestration core
# of `nextcloud-cli.py`

This file is a shallow embedding of the core of `src/nextcloud-cli.py`:

* registry tag discovery and version bucketing
  (`fetch_nextcloud_fpm_versions`, `fetch_semver_versions`),
* upgrade-path computation and the sequential update loop
  (`run_update_process`),
* the compose-file image rewrite (`update_docker_compose_images`),
* the in-container maintenance commands (`run_occ_commands`).

External collaborators (HTTP, the docker runtime, the filesystem, sleeps)
are modelled as explicit inputs: registry responses are an oracle
`Nat → Except Unit RegPage`, per-step runtime outcomes are a `StepEnv`
record, and the persisted `docker-compose.yml` is a `FileState` value
(`Except Unit ComposeDoc`, `.error` standing for an unparseable document).
Side effects are recorded as an explicit event trace of type `List Ev`.

`packaging.version.Version` is modelled by its release segment: a tag
parses when it is a nonempty dot-separated list of digit runs, and two
parsed versions compare componentwise with implicit zero padding, which
is exactly PEP 440 comparison on plain release-only versions (the only
versions that survive the deny-list filters used by this program).
-/

/-! ## Parsed versions (the release segment of `packaging.version.Version`) -/

/-- Splits a character list at every `'.'`, keeping empty segments, as
`"x.y".split(".")` does. -/
def splitDots : List Char → List (List Char)
  | [] => [[]]
  | '.' :: rest => [] :: splitDots rest
  | c :: rest =>
    match splitDots rest with
    | [] => [[c]]
    | p :: ps => (c :: p) :: ps

/-- Numeric value of a run of decimal digits. -/
def natOfDigits (l : List Char) : Nat :=
  l.foldl (fun n c => n * 10 + (c.toNat - 48)) 0

/-- Parses a release-only semantic version: a nonempty dot-separated list
of digit runs.  Returns `none` exactly when `packaging.version.Version`
would raise `InvalidVersion` on such strings (pre-release and local
variants never reach the parser in this program because the substring
deny-lists remove them first). -/
def parseRelease (s : String) : Option (List Nat) :=
  let parts := splitDots s.toList
  if parts.all (fun p => !p.isEmpty && p.all Char.isDigit) then
    some (parts.map natOfDigits)
  else none

/-- Removes every occurrence of `"-fpm"`, as `tag.replace("-fpm", "")`
does (left-to-right, non-overlapping). -/
def stripFpm : List Char → List Char
  | [] => []
  | '-' :: 'f' :: 'p' :: 'm' :: rest => stripFpm rest
  | c :: rest => c :: stripFpm rest

/-- The parse `Version(tag.replace("-fpm", ""))` used for Nextcloud FPM
tags; `none` models a raised `InvalidVersion`. -/
def parseCore? (t : String) : Option (List Nat) :=
  parseRelease (String.mk (stripFpm t.toList))

/-- Total version key for FPM tags (only applied to tags whose parse is
known to succeed; the default is irrelevant on those). -/
def keyFpm (t : String) : List Nat :=
  (parseCore? t).getD []

/-- Total version key for plain SemVer tags. -/
def keySem (t : String) : List Nat :=
  (parseRelease t).getD []

/-- Major component of a parsed version under a given key function. -/
def majorK (key : String → List Nat) (t : String) : Nat :=
  (key t).headD 0

/-! ## Comparison of parsed versions

`vcmp` compares release lists componentwise, treating a missing
component as `0`, matching `packaging.version` comparison on
release-only versions (`Version("21") == Version("21.0")`,
`Version("21.0.1") > Version("21")`, …). -/

def vcmpNil : List Nat → Ordering
  | [] => .eq
  | b :: bs => if b = 0 then vcmpNil bs else .lt

def vcmp : List Nat → List Nat → Ordering
  | [], b => vcmpNil b
  | a :: as, [] => if a = 0 then vcmp as [] else .gt
  | a :: as, b :: bs => if a < b then .lt else if b < a then .gt else vcmp as bs

/-- Boolean `≤` on parsed versions. -/
def vle (a b : List Nat) : Bool := vcmp a b ≠ .gt

/-- Boolean `<` on parsed versions. -/
def vlt (a b : List Nat) : Bool := vcmp a b = .lt

theorem vcmp_nil (b : List Nat) : vcmp [] b = vcmpNil b := by
  simp [vcmp]

theorem vcmp_self : ∀ a, vcmp a a = .eq := by
  intro a
  induction a with
  | nil => simp [vcmp, vcmpNil]
  | cons x xs ih => simp [vcmp, ih]

theorem vcmpNil_ne_gt : ∀ b, vcmpNil b ≠ .gt := by
  intro b
  induction b with
  | nil => simp [vcmpNil]
  | cons x xs ih =>
    simp only [vcmpNil]
    by_cases hx : x = 0 <;> simp [hx, ih]

theorem vcmp_nil_ne_gt : ∀ b, vcmp [] b ≠ .gt := by
  intro b
  rw [vcmp_nil]
  exact vcmpNil_ne_gt b

theorem vcmp_nil_ne_lt : ∀ b, vcmp b [] ≠ .lt := by
  intro b
  induction b with
  | nil => simp [vcmp, vcmpNil]
  | cons x xs ih =>
    simp only [vcmp]
    by_cases hx : x = 0 <;> simp [hx, ih]

theorem vcmpNil_swap : ∀ b, vcmpNil b = (vcmp b []).swap := by
  intro b
  induction b with
  | nil => simp [vcmp, vcmpNil, Ordering.swap]
  | cons x xs ih =>
    simp only [vcmpNil, vcmp]
    by_cases hx : x = 0 <;> simp [hx, ih, Ordering.swap]

theorem vcmp_nil_swap : ∀ b, vcmp [] b = (vcmp b []).swap := by
  intro b
  rw [vcmp_nil]
  exact vcmpNil_swap b

theorem vcmp_swap : ∀ a b, vcmp b a = (vcmp a b).swap := by
  intro a
  induction a with
  | nil =>
    intro b
    rw [vcmp_nil_swap b, Ordering.swap_swap]
  | cons x xs ih =>
    intro b
    cases b with
    | nil =>
      rw [vcmp_nil]
      exact vcmpNil_swap (x :: xs)
    | cons y ys =>
      simp only [vcmp]
      rcases Nat.lt_trichotomy x y with h | h | h
      · simp [h, Nat.lt_asymm h, Nat.ne_of_lt' h, Ordering.swap]
      · simp [h, Nat.lt_irrefl, ih]
      · simp [h, Nat.lt_asymm h, Nat.ne_of_lt' h, Ordering.swap]

theorem vcmp_trans_ne_gt :
    ∀ a b c, vcmp a b ≠ .gt → vcmp b c ≠ .gt → vcmp a c ≠ .gt := by
  intro a
  induction a with
  | nil => intro b c _ _; exact vcmp_nil_ne_gt c
  | cons x xs ih =>
    intro b c hab hbc
    cases b with
    | nil =>
      have hx : x = 0 ∧ vcmp xs [] ≠ .gt := by
        by_cases h : x = 0
        · exact ⟨h, by simpa [vcmp, h] using hab⟩
        · simp [vcmp, h] at hab
      cases c with
      | nil => exact hab
      | cons z zs =>
        rcases hx with ⟨hx0, hxs⟩
        subst hx0
        simp only [vcmp]
        by_cases hz : 0 < z
        · simp [hz]
        · have hz0 : z = 0 := by omega
          subst hz0
          simpa using ih [] zs hxs (vcmp_nil_ne_gt zs)
    | cons y ys =>
      cases c with
      | nil =>
        have hy : y = 0 ∧ vcmp ys [] ≠ .gt := by
          by_cases h : y = 0
          · exact ⟨h, by simpa [vcmp, h] using hbc⟩
          · simp [vcmp, h] at hbc
        rcases hy with ⟨hy0, hys⟩
        subst hy0
        have hxy : ¬ 0 < x := by
          intro hpos
          simp [vcmp, Nat.not_lt_of_lt hpos, hpos] at hab
        have hx0 : x = 0 := by omega
        subst hx0
        have hab' : vcmp xs ys ≠ .gt := by simpa [vcmp] using hab
        simp only [vcmp]
        simpa using ih ys [] hab' hys
      | cons z zs =>
        simp only [vcmp] at hab hbc ⊢
        rcases Nat.lt_trichotomy x y with hxy | hxy | hxy
        · rcases Nat.lt_trichotomy y z with hyz | hyz | hyz
          · have : x < z := Nat.lt_trans hxy hyz
            simp [this]
          · subst hyz; simp [hxy]
          · simp [Nat.lt_asymm hyz, hyz] at hbc
        · subst hxy
          rcases Nat.lt_trichotomy x z with hyz | hyz | hyz
          · simp [hyz]
          · subst hyz
            simp only [Nat.lt_irrefl, if_false] at hab hbc ⊢
            exact ih ys zs hab hbc
          · simp [Nat.lt_asymm hyz, hyz] at hbc
        · simp [Nat.lt_asymm hxy, hxy] at hab

theorem vle_refl (a : List Nat) : vle a a = true := by
  simp [vle, vcmp_self]

theorem vle_trans {a b c : List Nat} (h1 : vle a b = true) (h2 : vle b c = true) :
    vle a c = true := by
  simp only [vle, ne_eq, decide_eq_true_eq] at h1 h2 ⊢
  exact vcmp_trans_ne_gt a b c h1 h2

theorem vle_total (a b : List Nat) : vle a b = true ∨ vle b a = true := by
  simp only [vle, ne_eq, decide_eq_true_eq]
  by_cases h : vcmp a b = .gt
  · right
    rw [vcmp_swap, h]
    simp [Ordering.swap]
  · left; exact h

theorem vlt_of_vle_of_ne {a b : List Nat}
    (h1 : vle a b = true) (h2 : vcmp a b ≠ .eq) : vlt a b = true := by
  simp only [vle, ne_eq, decide_eq_true_eq] at h1
  simp only [vlt, decide_eq_true_eq]
  cases h : vcmp a b with
  | lt => rfl
  | eq => exact absurd h h2
  | gt => exact absurd h h1

theorem vlt_asymm {a b : List Nat} (h : vlt a b = true) : vle a b = true := by
  simp only [vlt, decide_eq_true_eq] at h
  simp [vle, h]

/-! ## Registry tag discovery (`fetch_nextcloud_fpm_versions`, `fetch_semver_versions`)

A registry response page carries the raw tag names of `results[].name`
and whether a `next` pagination cursor is present.  The HTTP layer is an
oracle `pages : Nat → Except Unit RegPage`; `.error ()` models any
transport failure, non-2xx status or malformed body, all of which raise
inside the `try` block of the Python code. -/

/-- One page of the registry tag-listing endpoint. -/
structure RegPage where
  results : List String
  next : Bool
deriving DecidableEq

/-- Boolean contiguous-substring test, `sub in s` of Python. -/
def hasSub (p : List Char) : List Char → Bool
  | [] => p.isEmpty
  | c :: rest => p.isPrefixOf (c :: rest) || hasSub p rest

/-- Substring deny-list of `fetch_nextcloud_fpm_versions`. -/
def denyFpm : List String := ["apache", "windows", "rc", "beta"]

/-- Default substring deny-list of `fetch_semver_versions`. -/
def denySemDefault : List String := ["windows", "rc", "beta"]

/-- Per-tag acceptance test of the `fetch_nextcloud_fpm_versions` loop
body: no deny-listed substring, the tag contains `"fpm"`, and the
suffix-stripped tag parses as a version. -/
def fpmTagOk (t : String) : Bool :=
  !(denyFpm.any fun sub => hasSub sub.toList t.toList) &&
    hasSub "fpm".toList t.toList &&
    (parseCore? t).isSome

/-- Per-tag acceptance test of the `fetch_semver_versions` loop body. -/
def semverTagOk (subs : List String) (t : String) : Bool :=
  !(subs.any fun sub => hasSub sub.toList t.toList) &&
    (parseRelease t).isSome

/-- The shared pagination loop of both fetch functions.  `fuel` bounds the
recursion (the entry point passes `100`, enough for the `page <= MAX_PAGE`
guard to fail first); the result carries the accumulated valid tags and
the number of pages actually requested.  An `.error` response propagates,
modelling the exception that aborts the surrounding `try` block. -/
def fetchGo (ok : String → Bool) (pages : Nat → Except Unit RegPage) :
    Nat → Nat → List String → Nat → Except Unit (List String × Nat)
  | 0, _, acc, cnt => .ok (acc, cnt)
  | fuel + 1, page, acc, cnt =>
    if page ≤ 100 ∧ acc.length < 100 then
      match pages page with
      | .error e => .error e
      | .ok pg =>
        if pg.results.isEmpty then .ok (acc, cnt + 1)
        else
          let acc' := acc ++ pg.results.filter ok
          if pg.next then fetchGo ok pages fuel (page + 1) acc' (cnt + 1)
          else .ok (acc', cnt + 1)
    else .ok (acc, cnt)

/-- Stable descending sort by a parsed-version key,
`sorted(tags, key=..., reverse=True)`.  Python guarantees a stable sort;
for a total preorder the stable sorted permutation is unique, so the
(stable) insertion sort is an exact model of it. -/
def sortTagsDesc (key : String → List Nat) (l : List String) : List String :=
  l.insertionSort fun a b => vle (key b) (key a) = true

/-- The bucketing loop: walk the descending-sorted tags, keep the first
tag of each not-yet-seen major, stop as soon as `maxCount` majors are
collected (the Python `break` fires after an insertion). -/
def pickMajors (key : String → List Nat) (maxCount : Nat) :
    List String → List (Nat × String) → List (Nat × String)
  | [], acc => acc
  | t :: ts, acc =>
    let acc' :=
      if acc.any (fun p => p.1 == majorK key t) then acc
      else acc ++ [(majorK key t, t)]
    if maxCount ≤ acc'.length then acc' else pickMajors key maxCount ts acc'

/-- The post-loop processing shared by both fetch functions: deduplicate
the collected tags (`set(...)`), sort descending by parsed version,
bucket by major keeping the highest tag per major, then re-sort the
surviving tags descending.  `set()` iteration order is unspecified in
Python; it is determinized here as `List.dedup`, which the proved
properties do not depend on. -/
def processTags (key : String → List Nat) (maxCount : Nat)
    (collected : List String) : List String :=
  let sortedTags := sortTagsDesc key collected.dedup
  let picked := pickMajors key maxCount sortedTags []
  sortTagsDesc key (picked.map (·.2))

/-- Model of `fetch_nextcloud_fpm_versions`: page through the registry,
filter and validate tags, and bucket them into at most ten majors.  Any
failure inside the loop makes the whole call return `[]`. -/
def fetchNextcloudFpmVersions (pages : Nat → Except Unit RegPage) : List String :=
  match fetchGo fpmTagOk pages 100 1 [] 0 with
  | .error _ => []
  | .ok (acc, _) => processTags keyFpm 10 acc

/-- Model of `fetch_semver_versions` with its deny-list and `max_count`
arguments (defaults `["windows", "rc", "beta"]` and `10`). -/
def fetchSemverVersions (subs : List String) (maxCount : Nat)
    (pages : Nat → Except Unit RegPage) : List String :=
  match fetchGo (semverTagOk subs) pages 100 1 [] 0 with
  | .error _ => []
  | .ok (acc, _) => processTags keySem maxCount acc

/-! ## Upgrade-path computation (the planning part of `run_update_process`)

The Python code builds `update_path` inside a `try` block by comparing
`Version(version.replace("-fpm", ""))` with
`Version(installed_version.replace("-fpm", ""))` for each catalog entry;
any `InvalidVersion` raised there is caught and aborts the run.  `none`
models that caught exception. -/

/-- Builds the raw update path: the catalog entries whose parsed version
is strictly greater than the installed one, in catalog order.  `none`
models the exception raised when either side fails to parse. -/
def buildPath : List String → String → Option (List String)
  | [], _ => some []
  | v :: rest, inst =>
    match parseCore? v with
    | none => none
    | some kv =>
      match parseCore? inst with
      | none => none
      | some ki =>
        match buildPath rest inst with
        | none => none
        | some tail => some (if vlt ki kv then v :: tail else tail)

/-- Restriction of the update path to versions at most the chosen target,
applied only in the "specific version" mode.  Every reachable element
parses (it survived `buildPath`), so the total key is faithful here. -/
def applyTargetFilter (path : List String) : Option String → List String
  | some tgt => path.filter fun v => vle (keyFpm v) (keyFpm tgt)
  | none => path

/-- Ascending sort of the update path,
`sorted(update_path, key=lambda v: Version(v.replace("-fpm", "")))`. -/
def sortPlan (p : List String) : List String :=
  p.insertionSort fun a b => vle (keyFpm a) (keyFpm b) = true

/-- The whole planning phase of `run_update_process`: raw path, optional
target restriction, ascending sort.  `none` models the caught
version-comparison exception (error message, early return). -/
def computePlan (catalog : List String) (installed : String)
    (target : Option String) : Option (List String) :=
  match buildPath catalog installed with
  | none => none
  | some path => some (sortPlan (applyTargetFilter path target))

/-! ## The persisted deployment state (`docker-compose.yml`)

`update_docker_compose_images` loads the document, sets
`services[service]["image"] = f"nextcloud:{new_version}"` when the
service key exists, and writes the document back; every exception is
caught and reported, leaving the file untouched.  A YAML scalar is a
string; every other value shape the program never inspects is abstracted
as `YVal.blob`. -/

/-- An abstracted YAML value: the `image` field is a string, all other
field values (volumes, depends_on, …) are opaque. -/
inductive YVal where
  | str (s : String)
  | blob (n : Nat)
deriving DecidableEq

/-- The parsed compose document: the optional `services` mapping (absent
when the document has no such key), each service being a field mapping,
plus the untouched remaining top-level entries. -/
structure ComposeDoc where
  services : Option (List (String × List (String × YVal)))
  rest : List (String × YVal)
deriving DecidableEq

/-- The compose file on disk: `.error ()` models a document that
`yaml.safe_load` cannot parse into a mapping. -/
abbrev FileState := Except Unit ComposeDoc

/-- Assignment `d[k] = v` on a field mapping: replaces the first binding
of `k`, appends a new binding when `k` is absent. -/
def setField : List (String × YVal) → String → YVal → List (String × YVal)
  | [], k, v => [(k, v)]
  | (k', v') :: rest, k, v =>
    if k' = k then (k, v) :: rest else (k', v') :: setField rest k v

/-- Rewrites the `image` field of the named service to
`nextcloud:<ver>`, leaving every other service entry untouched. -/
def updateServiceImage (svcs : List (String × List (String × YVal)))
    (name ver : String) : List (String × List (String × YVal)) :=
  svcs.map fun p =>
    if p.1 = name then (p.1, setField p.2 "image" (.str ("nextcloud:" ++ ver)))
    else p

/-- Model of `update_docker_compose_images(new_version, service, ...)`.
The first component is the written-back file, the second the Python
return value, which is always `None`: the function returns no previous
image reference.  On an unparseable document the raised exception is
caught, nothing is written, and the file stays as it was. -/
def updateDockerComposeImages (ver svc : String) :
    FileState → FileState × Option String
  | .error e => (.error e, none)
  | .ok doc =>
    match doc.services with
    | none => (.ok doc, none)
    | some svcs =>
      if svcs.any (fun p => p.1 == svc) then
        (.ok { doc with services := some (updateServiceImage svcs svc ver) }, none)
      else (.ok doc, none)

/-- The service entry the document currently holds for `name`. -/
def svcLookup (f : FileState) (name : String) : Option (List (String × YVal)) :=
  match f with
  | .error _ => none
  | .ok doc =>
    match doc.services with
    | none => none
    | some svcs => svcs.lookup name

/-- The image reference the document currently records for `name`. -/
def svcImage (f : FileState) (name : String) : Option YVal :=
  (svcLookup f name).bind fun flds => flds.lookup "image"

/-! ## The sequential update loop of `run_update_process`

Per step the code: stops the stack (`docker-compose down`, failure →
error message and `return`), sleeps 30s, rewrites the `nextcloud-fpm`
and `nextcloud-cron` images, starts the stack (failure → error message
and `return`), sleeps 60s, blocks in `wait_for_nextcloud_status` until
the readiness predicate holds, resolves the container by name substring
and runs the occ maintenance commands, then declares the step complete
and moves on.  The container runtime and command outcomes are an oracle
`env : Nat → StepEnv` indexed by the 1-based step counter; everything
observable is recorded in the event trace. -/

/-- Outcomes of one step of the oracle: whether `docker-compose down` and
`docker-compose up -d` exit successfully, the container id found for
`"nextcloud-fpm"` (if any), and the exit statuses of the three occ
maintenance commands.  `occ3` has no observable effect beyond its own
reported failure, because nothing follows the third command in the
`try` block. -/
structure StepEnv where
  downOk : Bool
  upOk : Bool
  container : Option String
  occ1 : Bool
  occ2 : Bool
  occ3 : Bool

/-- Observable events of an update run, tagged with the 1-based step
counter. -/
inductive Ev where
  | down (step : Nat)
  | sleepFor (step : Nat) (secs : Nat)
  | mutateCall (step : Nat) (svc ver : String)
  | up (step : Nat)
  | waitReady (step : Nat)
  | occRun (step : Nat) (cmd : String)
  | containerMissing (step : Nat)
  | complete (step : Nat) (ver : String)
deriving DecidableEq

/-- The step counter an event belongs to. -/
def Ev.stepOf : Ev → Nat
  | .down i => i
  | .sleepFor i _ => i
  | .mutateCall i _ _ => i
  | .up i => i
  | .waitReady i => i
  | .occRun i _ => i
  | .containerMissing i => i
  | .complete i _ => i

/-- Result of a whole run of `run_update_process`. -/
inductive Outcome where
  | planError
  | noUpdate
  | aborted (step : Nat)
  | finished
deriving DecidableEq

def occCmd1 : String := "db:add-missing-indices"
def occCmd2 : String := "maintenance:repair --include-expensive"
def occCmd3 : String := "upgrade"

/-- Event trace of `run_occ_commands`: the three occ commands are issued
with `check=True` inside a single `try` block, so a non-zero exit of the
first or second command raises `CalledProcessError`, which is caught
after skipping the remaining commands and sleeps; a failure of the third
command has nothing left to skip. -/
def runOccCommands (i : Nat) (o1 o2 : Bool) : List Ev :=
  if o1 then
    if o2 then
      [.occRun i occCmd1, .sleepFor i 60, .occRun i occCmd2,
       .sleepFor i 60, .occRun i occCmd3]
    else [.occRun i occCmd1, .sleepFor i 60, .occRun i occCmd2]
  else [.occRun i occCmd1]

/-- The step loop of `run_update_process` over the sorted update path,
starting at step counter `i` with compose file `f`.  `wait_for_nextcloud_status`
polls with no timeout and returns only once ready; it is recorded as the
single blocking event `Ev.waitReady`. -/
def runSteps (env : Nat → StepEnv) :
    List String → Nat → FileState → Outcome × FileState × List Ev
  | [], _, f => (.finished, f, [])
  | v :: rest, i, f =>
    let e := env i
    if e.downOk then
      let f1 := (updateDockerComposeImages v "nextcloud-fpm" f).1
      let f2 := (updateDockerComposeImages v "nextcloud-cron" f1).1
      let pre := [Ev.down i, Ev.sleepFor i 30,
                  Ev.mutateCall i "nextcloud-fpm" v,
                  Ev.mutateCall i "nextcloud-cron" v]
      if e.upOk then
        let occ :=
          match e.container with
          | some _ => runOccCommands i e.occ1 e.occ2
          | none => [Ev.containerMissing i]
        let r := runSteps env rest (i + 1) f2
        (r.1, r.2.1,
          pre ++ [Ev.up i, Ev.sleepFor i 60, Ev.waitReady i] ++ occ ++
            [Ev.complete i v] ++ r.2.2)
      else (.aborted i, f2, pre ++ [Ev.up i])
    else (.aborted i, f, [Ev.down i])

/-- Model of `run_update_process`: plan (catching the version-comparison
exception), return early on an empty path ("No newer version available"
or "No update steps are required"), otherwise run the step loop from
step 1.  The choice between "latest" and "specific target" modes is the
`target` argument; the interactive prompt always picks the target from
the already-computed `update_path`. -/
def runUpdateProcess (installed : String) (catalog : List String)
    (target : Option String) (env : Nat → StepEnv) (file : FileState) :
    Outcome × FileState × List Ev :=
  match computePlan catalog installed target with
  | none => (.planError, file, [])
  | some plan =>
    if plan.isEmpty then (.noUpdate, file, [])
    else runSteps env plan 1 file

/-! ## Helper lemmas about the compose-document operations -/

theorem lookup_cons_ne {β : Type} {k k0 : String} (v0 : β)
    (rest : List (String × β)) (h : k ≠ k0) :
    ((k0, v0) :: rest).lookup k = rest.lookup k := by
  rw [List.lookup_cons]
  have hb : (k == k0) = false := by simpa using h
  rw [hb]

theorem lookup_setField_self (flds : List (String × YVal)) (k : String) (v : YVal) :
    (setField flds k v).lookup k = some v := by
  induction flds with
  | nil => simp [setField]
  | cons p rest ih =>
    obtain ⟨k', v'⟩ := p
    by_cases h : k' = k
    · simp [setField, h]
    · simp only [setField, if_neg h]
      rw [lookup_cons_ne _ _ (fun he => h he.symm)]
      exact ih

theorem lookup_setField_other (flds : List (String × YVal)) (k k' : String)
    (v : YVal) (h : k' ≠ k) :
    (setField flds k v).lookup k' = flds.lookup k' := by
  induction flds with
  | nil => simp [setField, lookup_cons_ne _ _ h]
  | cons p rest ih =>
    obtain ⟨k0, v0⟩ := p
    by_cases h0 : k0 = k
    · subst h0
      have e : setField ((k0, v0) :: rest) k0 v = (k0, v) :: rest := by
        simp [setField]
      rw [e, lookup_cons_ne _ _ h, lookup_cons_ne _ _ h]
    · simp only [setField, if_neg h0]
      by_cases hk : k' = k0
      · subst hk; simp
      · rw [lookup_cons_ne _ _ hk, lookup_cons_ne _ _ hk]
        exact ih

theorem lookup_updateServiceImage_self
    (svcs : List (String × List (String × YVal))) (name ver : String)
    (flds : List (String × YVal)) (h : svcs.lookup name = some flds) :
    (updateServiceImage svcs name ver).lookup name =
      some (setField flds "image" (.str ("nextcloud:" ++ ver))) := by
  induction svcs with
  | nil => simp at h
  | cons p rest ih =>
    obtain ⟨n0, f0⟩ := p
    by_cases hn : n0 = name
    · subst hn
      simp only [List.lookup_cons_self, Option.some.injEq] at h
      subst h
      simp [updateServiceImage]
    · rw [lookup_cons_ne _ _ (fun he => hn he.symm)] at h
      simp only [updateServiceImage, List.map_cons, if_neg hn]
      rw [lookup_cons_ne _ _ (fun he => hn he.symm)]
      exact ih h

theorem lookup_updateServiceImage_other
    (svcs : List (String × List (String × YVal))) (name ver n' : String)
    (h : n' ≠ name) :
    (updateServiceImage svcs name ver).lookup n' = svcs.lookup n' := by
  induction svcs with
  | nil => simp [updateServiceImage]
  | cons p rest ih =>
    obtain ⟨n0, f0⟩ := p
    by_cases hn : n0 = name
    · subst hn
      have e : updateServiceImage ((n0, f0) :: rest) n0 ver =
          (n0, setField f0 "image" (.str ("nextcloud:" ++ ver))) ::
            updateServiceImage rest n0 ver := by
        simp [updateServiceImage]
      rw [e, lookup_cons_ne _ _ h, lookup_cons_ne _ _ h]
      exact ih
    · simp only [updateServiceImage, List.map_cons, if_neg hn]
      by_cases hk : n' = n0
      · subst hk; simp
      · rw [lookup_cons_ne _ _ hk, lookup_cons_ne _ _ hk]
        exact ih

theorem any_eq_lookup_isSome {β : Type} (svcs : List (String × β)) (k : String) :
    (svcs.any fun p => p.1 == k) = (svcs.lookup k).isSome := by
  induction svcs with
  | nil => simp
  | cons p rest ih =>
    obtain ⟨k0, v0⟩ := p
    by_cases h : k0 = k
    · subst h; simp
    · have hk : k ≠ k0 := fun he => h he.symm
      rw [lookup_cons_ne _ _ hk]
      simp only [List.any_cons]
      rw [show (k0 == k) = false by simpa using h]
      simp only [Bool.false_or]
      exact ih

theorem updateDCI_error (ver svc : String) (e : Unit) :
    updateDockerComposeImages ver svc (.error e) = (.error e, none) := rfl

theorem updateDCI_snd (ver svc : String) (f : FileState) :
    (updateDockerComposeImages ver svc f).2 = none := by
  cases f with
  | error e => rfl
  | ok doc =>
    simp only [updateDockerComposeImages]
    cases doc.services with
    | none => rfl
    | some svcs =>
      by_cases h : (svcs.any fun p => p.1 == svc) = true <;> simp [h]

theorem updateDCI_present (ver svc : String) (doc : ComposeDoc)
    (svcs : List (String × List (String × YVal))) (flds : List (String × YVal))
    (hs : doc.services = some svcs) (h : svcs.lookup svc = some flds) :
    updateDockerComposeImages ver svc (.ok doc) =
      (.ok ⟨some (updateServiceImage svcs svc ver), doc.rest⟩, none) := by
  obtain ⟨os, rest⟩ := doc
  simp only at hs
  subst hs
  have hany : (svcs.any fun p => p.1 == svc) = true := by
    rw [any_eq_lookup_isSome, h]
    rfl
  simp [updateDockerComposeImages, hany]

theorem svcLookup_update_other (ver svc n : String) (f : FileState)
    (h : n ≠ svc) :
    svcLookup (updateDockerComposeImages ver svc f).1 n = svcLookup f n := by
  cases f with
  | error e => rfl
  | ok doc =>
    obtain ⟨os, rest⟩ := doc
    cases os with
    | none => rfl
    | some svcs =>
      simp only [updateDockerComposeImages]
      by_cases hany : (svcs.any fun p => p.1 == svc) = true
      · simp only [hany, if_pos]
        simp only [svcLookup]
        exact lookup_updateServiceImage_other svcs svc ver n h
      · simp [hany]

theorem svcLookup_update_self_present (ver svc : String) (f : FileState)
    (flds : List (String × YVal)) (h : svcLookup f svc = some flds) :
    svcLookup (updateDockerComposeImages ver svc f).1 svc =
      some (setField flds "image" (.str ("nextcloud:" ++ ver))) := by
  cases f with
  | error e => simp [svcLookup] at h
  | ok doc =>
    obtain ⟨os, rest⟩ := doc
    cases os with
    | none => simp [svcLookup] at h
    | some svcs =>
      simp only [svcLookup] at h
      rw [updateDCI_present ver svc ⟨some svcs, rest⟩ svcs flds rfl h]
      simp only [svcLookup]
      exact lookup_updateServiceImage_self svcs svc ver flds h

theorem svcLookup_update_isSome (ver svc n : String) (f : FileState) :
    (svcLookup (updateDockerComposeImages ver svc f).1 n).isSome =
      (svcLookup f n).isSome := by
  by_cases hn : n = svc
  · subst hn
    cases hs : svcLookup f n with
    | none =>
      cases f with
      | error e => rfl
      | ok doc =>
        obtain ⟨os, rest⟩ := doc
        cases os with
        | none => rfl
        | some svcs =>
          simp only [svcLookup] at hs
          have hany : (svcs.any fun p => p.1 == n) = false := by
            rw [any_eq_lookup_isSome, hs]
            rfl
          simp [updateDockerComposeImages, hany, svcLookup, hs]
    | some flds =>
      rw [svcLookup_update_self_present ver n f flds hs]
      rfl
  · rw [svcLookup_update_other ver svc n f hn]

theorem svcImage_update_self (ver svc : String) (f : FileState)
    (flds : List (String × YVal)) (h : svcLookup f svc = some flds) :
    svcImage (updateDockerComposeImages ver svc f).1 svc =
      some (.str ("nextcloud:" ++ ver)) := by
  simp only [svcImage]
  rw [svcLookup_update_self_present ver svc f flds h]
  exact lookup_setField_self flds "image" _

theorem svcImage_update_other (ver svc n : String) (f : FileState)
    (h : n ≠ svc) :
    svcImage (updateDockerComposeImages ver svc f).1 n = svcImage f n := by
  simp only [svcImage]
  rw [svcLookup_update_other ver svc n f h]

/-! ## Helper lemmas about planning -/

theorem buildPath_inst_none (v : String) (rest : List String) (inst : String)
    (h : parseCore? inst = none) : buildPath (v :: rest) inst = none := by
  simp only [buildPath]
  cases parseCore? v with
  | none => rfl
  | some kv => rw [h]

theorem buildPath_sublist :
    ∀ (catalog : List String) (inst : String) (path : List String),
      buildPath catalog inst = some path → path.Sublist catalog := by
  intro catalog
  induction catalog with
  | nil =>
    intro inst path h
    simp only [buildPath, Option.some.injEq] at h
    subst h
    exact List.Sublist.refl []
  | cons v rest ih =>
    intro inst path h
    simp only [buildPath] at h
    cases hv : parseCore? v with
    | none => rw [hv] at h; exact absurd h (by simp)
    | some kv =>
      rw [hv] at h
      cases hi : parseCore? inst with
      | none => rw [hi] at h; exact absurd h (by simp)
      | some ki =>
        rw [hi] at h
        cases ht : buildPath rest inst with
        | none => rw [ht] at h; exact absurd h (by simp)
        | some tail =>
          rw [ht] at h
          simp only [Option.some.injEq] at h
          subst h
          by_cases hlt : vlt ki kv = true
          · simpa [hlt] using (ih inst tail ht).cons₂ v
          · simpa [hlt] using (ih inst tail ht).cons v

theorem buildPath_mem :
    ∀ (catalog : List String) (inst : String) (path : List String) (v : String),
      buildPath catalog inst = some path → v ∈ path →
      ∃ kv ki, parseCore? v = some kv ∧ parseCore? inst = some ki ∧
        vlt ki kv = true := by
  intro catalog
  induction catalog with
  | nil =>
    intro inst path v h hv
    simp only [buildPath, Option.some.injEq] at h
    subst h
    simp at hv
  | cons w rest ih =>
    intro inst path v h hv
    simp only [buildPath] at h
    cases hw : parseCore? w with
    | none => rw [hw] at h; exact absurd h (by simp)
    | some kw =>
      rw [hw] at h
      cases hi : parseCore? inst with
      | none => rw [hi] at h; exact absurd h (by simp)
      | some ki =>
        rw [hi] at h
        cases ht : buildPath rest inst with
        | none => rw [ht] at h; exact absurd h (by simp)
        | some tail =>
          rw [ht] at h
          simp only [Option.some.injEq] at h
          subst h
          by_cases hlt : vlt ki kw = true
          · rw [if_pos hlt] at hv
            rcases List.mem_cons.1 hv with rfl | hv'
            · exact ⟨kw, ki, hw, rfl, hlt⟩
            · obtain ⟨kv, ki', h1, h2, h3⟩ := ih inst tail v ht hv'
              rw [hi] at h2
              obtain rfl := Option.some.inj h2
              exact ⟨kv, ki, h1, rfl, h3⟩
          · rw [if_neg hlt] at hv
            obtain ⟨kv, ki', h1, h2, h3⟩ := ih inst tail v ht hv
            rw [hi] at h2
            obtain rfl := Option.some.inj h2
            exact ⟨kv, ki, h1, rfl, h3⟩

/-! ## Helper lemmas about the update loop -/

theorem runOccCommands_stepOf (i : Nat) (o1 o2 : Bool) :
    ∀ e ∈ runOccCommands i o1 o2, e.stepOf = i := by
  intro e he
  cases o1 <;> cases o2 <;>
    simp only [runOccCommands, Bool.false_eq_true, if_true, if_false,
      List.mem_cons, List.mem_singleton, List.not_mem_nil, or_false] at he <;>
    rcases he with rfl | rfl | rfl | rfl | rfl <;> rfl

theorem runSteps_finished (env : Nat → StepEnv)
    (hgood : ∀ j, (env j).downOk = true ∧ (env j).upOk = true) :
    ∀ (plan : List String) (i : Nat) (f : FileState),
      (runSteps env plan i f).1 = .finished ∧
      ∀ k v, plan[k]? = some v →
        Ev.complete (i + k) v ∈ (runSteps env plan i f).2.2 := by
  intro plan
  induction plan with
  | nil =>
    intro i f
    refine ⟨rfl, ?_⟩
    intro k v h
    simp at h
  | cons v rest ih =>
    intro i f
    obtain ⟨hdown, hup⟩ := hgood i
    simp only [runSteps, hdown, hup, if_true]
    constructor
    · exact (ih (i + 1) _).1
    · intro k w hk
      cases k with
      | zero =>
        simp only [List.getElem?_cons_zero, Option.some.injEq] at hk
        subst hk
        simp
      | succ k' =>
        simp only [List.getElem?_cons_succ] at hk
        have := (ih (i + 1)
          ((updateDockerComposeImages v "nextcloud-cron"
            (updateDockerComposeImages v "nextcloud-fpm" f).1).1)).2 k' w hk
        have harr : i + 1 + k' = i + (k' + 1) := by omega
        rw [harr] at this
        simp only [List.mem_append]
        tauto

theorem runSteps_abort (env : Nat → StepEnv) :
    ∀ (plan : List String) (i : Nat) (f : FileState) (k : Nat) (vk : String),
      (svcLookup f "nextcloud-fpm").isSome = true →
      (svcLookup f "nextcloud-cron").isSome = true →
      i ≤ k → plan[k - i]? = some vk →
      (∀ j, i ≤ j → j < k → (env j).downOk = true ∧ (env j).upOk = true) →
      (env k).downOk = true → (env k).upOk = false →
      (runSteps env plan i f).1 = .aborted k ∧
      (∀ e ∈ (runSteps env plan i f).2.2, e.stepOf ≤ k) ∧
      svcImage (runSteps env plan i f).2.1 "nextcloud-fpm" =
        some (.str ("nextcloud:" ++ vk)) ∧
      svcImage (runSteps env plan i f).2.1 "nextcloud-cron" =
        some (.str ("nextcloud:" ++ vk)) := by
  intro plan
  induction plan with
  | nil =>
    intro i f k vk _ _ _ hidx _ _ _
    simp at hidx
  | cons v rest ih =>
    intro i f k vk hfpm hcron hik hidx hpre hdk huk
    by_cases heq : i = k
    · subst heq
      rw [Nat.sub_self] at hidx
      simp only [List.getElem?_cons_zero, Option.some.injEq] at hidx
      subst hidx
      obtain ⟨flds1, hfl1⟩ := Option.isSome_iff_exists.1 hfpm
      obtain ⟨flds2, hfl2⟩ := Option.isSome_iff_exists.1 hcron
      have hne : "nextcloud-fpm" ≠ "nextcloud-cron" := by decide
      have hne' : "nextcloud-cron" ≠ "nextcloud-fpm" := by decide
      have himg1 : svcImage
          (updateDockerComposeImages v "nextcloud-fpm" f).1 "nextcloud-fpm" =
          some (.str ("nextcloud:" ++ v)) :=
        svcImage_update_self v "nextcloud-fpm" f flds1 hfl1
      have hl2 : svcLookup
          (updateDockerComposeImages v "nextcloud-fpm" f).1 "nextcloud-cron" =
          some flds2 := by
        rw [svcLookup_update_other v "nextcloud-fpm" "nextcloud-cron" f hne']
        exact hfl2
      have himg2 : svcImage
          (updateDockerComposeImages v "nextcloud-cron"
            (updateDockerComposeImages v "nextcloud-fpm" f).1).1
            "nextcloud-cron" = some (.str ("nextcloud:" ++ v)) :=
        svcImage_update_self v "nextcloud-cron" _ flds2 hl2
      have himg1' : svcImage
          (updateDockerComposeImages v "nextcloud-cron"
            (updateDockerComposeImages v "nextcloud-fpm" f).1).1
            "nextcloud-fpm" = some (.str ("nextcloud:" ++ v)) := by
        rw [svcImage_update_other v "nextcloud-cron" "nextcloud-fpm" _ hne]
        exact himg1
      simp only [runSteps, hdk, huk, if_true, Bool.false_eq_true, if_false]
      refine ⟨by trivial, ?_, himg1', himg2⟩
      intro e he
      simp only [List.mem_append, List.mem_cons, List.not_mem_nil, or_false] at he
      rcases he with ((rfl | rfl | rfl | rfl) | rfl) <;> simp [Ev.stepOf]
    · have hlt : i < k := lt_of_le_of_ne hik heq
      obtain ⟨hdi, hui⟩ := hpre i le_rfl hlt
      have hsub : k - i = (k - (i + 1)) + 1 := by omega
      rw [hsub] at hidx
      simp only [List.getElem?_cons_succ] at hidx
      have hfpm2 : (svcLookup
          ((updateDockerComposeImages v "nextcloud-cron"
            (updateDockerComposeImages v "nextcloud-fpm" f).1).1)
          "nextcloud-fpm").isSome = true := by
        rw [svcLookup_update_isSome, svcLookup_update_isSome]
        exact hfpm
      have hcron2 : (svcLookup
          ((updateDockerComposeImages v "nextcloud-cron"
            (updateDockerComposeImages v "nextcloud-fpm" f).1).1)
          "nextcloud-cron").isSome = true := by
        rw [svcLookup_update_isSome, svcLookup_update_isSome]
        exact hcron
      have hih := ih (i + 1)
        ((updateDockerComposeImages v "nextcloud-cron"
          (updateDockerComposeImages v "nextcloud-fpm" f).1).1)
        k vk hfpm2 hcron2 (by omega) hidx
        (fun j h1 h2 => hpre j (by omega) h2) hdk huk
      cases hc : (env i).container with
      | some cid =>
        simp only [runSteps, hdi, hui, hc, if_true]
        refine ⟨hih.1, ?_, hih.2.2.1, hih.2.2.2⟩
        intro e he
        simp only [List.mem_append, List.mem_cons, List.not_mem_nil,
          or_false] at he
        rcases he with ((((rfl | rfl | rfl | rfl) | rfl | rfl | rfl) | hocc)
          | rfl) | htail
        · simp [Ev.stepOf]; omega
        · simp [Ev.stepOf]; omega
        · simp [Ev.stepOf]; omega
        · simp [Ev.stepOf]; omega
        · simp [Ev.stepOf]; omega
        · simp [Ev.stepOf]; omega
        · simp [Ev.stepOf]; omega
        · rw [runOccCommands_stepOf i (env i).occ1 (env i).occ2 e hocc]
          omega
        · simp [Ev.stepOf]; omega
        · exact hih.2.1 e htail
      | none =>
        simp only [runSteps, hdi, hui, hc, if_true]
        refine ⟨hih.1, ?_, hih.2.2.1, hih.2.2.2⟩
        intro e he
        simp only [List.mem_append, List.mem_cons, List.not_mem_nil,
          or_false] at he
        rcases he with ((((rfl | rfl | rfl | rfl) | rfl | rfl | rfl) | rfl)
          | rfl) | htail
        · simp [Ev.stepOf]; omega
        · simp [Ev.stepOf]; omega
        · simp [Ev.stepOf]; omega
        · simp [Ev.stepOf]; omega
        · simp [Ev.stepOf]; omega
        · simp [Ev.stepOf]; omega
        · simp [Ev.stepOf]; omega
        · simp [Ev.stepOf]; omega
        · simp [Ev.stepOf]; omega
        · exact hih.2.1 e htail

/-! ## Helper lemmas about the pagination loop -/

theorem fetchGo_ok_mem (ok : String → Bool) (pages : Nat → Except Unit RegPage) :
    ∀ (fuel page cnt : Nat) (acc tags : List String) (n : Nat),
      (∀ t ∈ acc, ok t = true) →
      fetchGo ok pages fuel page acc cnt = .ok (tags, n) →
      ∀ t ∈ tags, ok t = true := by
  intro fuel
  induction fuel with
  | zero =>
    intro page cnt acc tags n hacc h
    simp only [fetchGo, Except.ok.injEq, Prod.mk.injEq] at h
    obtain ⟨rfl, rfl⟩ := h
    exact hacc
  | succ fuel ih =>
    intro page cnt acc tags n hacc h
    simp only [fetchGo] at h
    by_cases hg : page ≤ 100 ∧ acc.length < 100
    · rw [if_pos hg] at h
      cases hp : pages page with
      | error e => rw [hp] at h; exact absurd h (by simp)
      | ok pg =>
        rw [hp] at h
        dsimp only at h
        by_cases hres : pg.results.isEmpty = true
        · rw [if_pos hres] at h
          simp only [Except.ok.injEq, Prod.mk.injEq] at h
          obtain ⟨rfl, rfl⟩ := h
          exact hacc
        · rw [if_neg hres] at h
          have hacc' : ∀ t ∈ acc ++ pg.results.filter ok, ok t = true := by
            intro t ht
            rcases List.mem_append.1 ht with h1 | h2
            · exact hacc t h1
            · exact List.of_mem_filter h2
          by_cases hnext : pg.next = true
          · rw [if_pos hnext] at h
            exact ih (page + 1) (cnt + 1) _ tags n hacc' h
          · rw [if_neg hnext] at h
            simp only [Except.ok.injEq, Prod.mk.injEq] at h
            obtain ⟨rfl, rfl⟩ := h
            exact hacc'
    · rw [if_neg hg] at h
      simp only [Except.ok.injEq, Prod.mk.injEq] at h
      obtain ⟨rfl, rfl⟩ := h
      exact hacc

theorem fetchGo_stop (ok : String → Bool) (pages : Nat → Except Unit RegPage) :
    ∀ (fuel page cnt : Nat) (acc tags : List String) (n : Nat),
      page = cnt + 1 → fuel + page = 101 →
      fetchGo ok pages fuel page acc cnt = .ok (tags, n) →
      (∃ pg, pages n = .ok pg ∧ (pg.results = [] ∨ pg.next = false)) ∨
        n = 100 ∨ 100 ≤ tags.length := by
  intro fuel
  induction fuel with
  | zero =>
    intro page cnt acc tags n hpc hfp h
    simp only [fetchGo, Except.ok.injEq, Prod.mk.injEq] at h
    obtain ⟨rfl, rfl⟩ := h
    right; left; omega
  | succ fuel ih =>
    intro page cnt acc tags n hpc hfp h
    simp only [fetchGo] at h
    have hpage : page ≤ 100 := by omega
    by_cases hlen : acc.length < 100
    · rw [if_pos ⟨hpage, hlen⟩] at h
      cases hp : pages page with
      | error e => rw [hp] at h; exact absurd h (by simp)
      | ok pg =>
        rw [hp] at h
        dsimp only at h
        by_cases hres : pg.results.isEmpty = true
        · rw [if_pos hres] at h
          simp only [Except.ok.injEq, Prod.mk.injEq] at h
          obtain ⟨rfl, rfl⟩ := h
          left
          refine ⟨pg, ?_, Or.inl (List.isEmpty_iff.1 hres)⟩
          rw [← hp]
          congr 1
          omega
        · rw [if_neg hres] at h
          by_cases hnext : pg.next = true
          · rw [if_pos hnext] at h
            exact ih (page + 1) (cnt + 1) _ tags n (by omega) (by omega) h
          · rw [if_neg hnext] at h
            simp only [Except.ok.injEq, Prod.mk.injEq] at h
            obtain ⟨rfl, rfl⟩ := h
            left
            refine ⟨pg, ?_, Or.inr (by simpa using hnext)⟩
            rw [← hp]
            congr 1
            omega
    · have hg : ¬ (page ≤ 100 ∧ acc.length < 100) := by tauto
      rw [if_neg hg] at h
      simp only [Except.ok.injEq, Prod.mk.injEq] at h
      obtain ⟨rfl, rfl⟩ := h
      right; right; omega

/-- The valid tags accumulated by the pagination loop after processing
pages `1..k`: exactly the `acc` the loop holds when it is about to
request page `k + 1` (a failing page contributes nothing, but the loop
will already have aborted on it). -/
def collectedTags (ok : String → Bool) (pages : Nat → Except Unit RegPage) :
    Nat → List String
  | 0 => []
  | k + 1 =>
    collectedTags ok pages k ++
      (match pages (k + 1) with
        | .ok pg => pg.results.filter ok
        | .error _ => [])

theorem collectedTags_length_mono (ok : String → Bool)
    (pages : Nat → Except Unit RegPage) :
    ∀ j k, j ≤ k →
      (collectedTags ok pages j).length ≤
        (collectedTags ok pages k).length := by
  intro j k
  induction k with
  | zero =>
    intro h
    have hj : j = 0 := by omega
    subst hj
    exact le_rfl
  | succ k ihk =>
    intro h
    by_cases hj : j = k + 1
    · subst hj
      exact le_rfl
    · have hjk : j ≤ k := by omega
      calc (collectedTags ok pages j).length
          ≤ (collectedTags ok pages k).length := ihk hjk
        _ ≤ (collectedTags ok pages (k + 1)).length := by
            simp [collectedTags]

/-- If the loop reaches page `p` — every earlier page responded with a
nonempty result list and a `next` cursor, and fewer than 100 tags are
collected up to `p` — and the request for page `p` fails, the whole loop
fails (and the surrounding fetch function returns `[]`). -/
theorem fetchGo_error_reached (ok : String → Bool)
    (pages : Nat → Except Unit RegPage) (p : Nat) :
    ∀ (fuel page cnt : Nat),
      page = cnt + 1 → fuel + page = 101 → page ≤ p → p ≤ 100 →
      (∀ q, page ≤ q → q < p →
        ∃ pg, pages q = .ok pg ∧ pg.results ≠ [] ∧ pg.next = true) →
      (collectedTags ok pages (p - 1)).length < 100 →
      pages p = .error () →
      fetchGo ok pages fuel page (collectedTags ok pages (page - 1)) cnt =
        .error () := by
  intro fuel
  induction fuel with
  | zero =>
    intro page cnt hpc hfp hpp hp100 _ _ _
    omega
  | succ fuel ih =>
    intro page cnt hpc hfp hpp hp100 hbefore hlen hfail
    have hacc : (collectedTags ok pages (page - 1)).length < 100 :=
      lt_of_le_of_lt
        (collectedTags_length_mono ok pages (page - 1) (p - 1) (by omega))
        hlen
    simp only [fetchGo]
    rw [if_pos ⟨by omega, hacc⟩]
    by_cases hpe : page = p
    · subst hpe
      rw [hfail]
    · have hlt : page < p := lt_of_le_of_ne hpp hpe
      obtain ⟨pg, hpg, hres, hnext⟩ := hbefore page le_rfl hlt
      rw [hpg]
      dsimp only
      rw [if_neg (by simpa [List.isEmpty_iff] using hres), if_pos hnext]
      have hpage : page - 1 + 1 = page := by omega
      have hstep : collectedTags ok pages page =
          collectedTags ok pages (page - 1) ++ pg.results.filter ok := by
        conv_lhs => rw [← hpage]
        simp only [collectedTags]
        rw [hpage, hpg]
      rw [← hstep]
      exact ih (page + 1) (cnt + 1) (by omega) (by omega) (by omega) hp100
        (fun q hq1 hq2 => hbefore q (by omega) hq2) hlen hfail

/-! ## Helper lemmas about version bucketing -/

theorem pickMajors_invariant (key : String → List Nat) (maxCount : Nat)
    (full : List String)
    (hsorted : full.Pairwise fun a b => vle (key b) (key a) = true) :
    ∀ (rest : List String) (acc : List (Nat × String)) (processed : List String),
      full = processed ++ rest →
      (∀ u ∈ processed, ∃ p ∈ acc, p.1 = majorK key u) →
      acc.Pairwise (fun p q => p.1 ≠ q.1) →
      (∀ p ∈ acc, p.1 = majorK key p.2 ∧ p.2 ∈ processed ∧
        ∀ u ∈ full, majorK key u = p.1 → vle (key u) (key p.2) = true) →
      acc.length < maxCount →
      (pickMajors key maxCount rest acc).Pairwise (fun p q => p.1 ≠ q.1) ∧
      (∀ p ∈ pickMajors key maxCount rest acc,
        p.1 = majorK key p.2 ∧ p.2 ∈ full ∧
        ∀ u ∈ full, majorK key u = p.1 → vle (key u) (key p.2) = true) ∧
      (pickMajors key maxCount rest acc).length ≤ maxCount := by
  intro rest
  induction rest with
  | nil =>
    intro acc processed hfull hproc hdist hgood hlen
    simp only [pickMajors]
    refine ⟨hdist, ?_, Nat.le_of_lt hlen⟩
    intro p hp
    obtain ⟨h1, h2, h3⟩ := hgood p hp
    refine ⟨h1, ?_, h3⟩
    rw [hfull]
    exact List.mem_append_left _ h2
  | cons t ts ih =>
    intro acc processed hfull hproc hdist hgood hlen
    simp only [pickMajors]
    by_cases hin : (acc.any fun p => p.1 == majorK key t) = true
    · rw [if_pos hin, if_neg (by omega : ¬ maxCount ≤ acc.length)]
      refine ih acc (processed ++ [t]) ?_ ?_ hdist ?_ hlen
      · rw [hfull]; simp
      · intro u hu
        rcases List.mem_append.1 hu with hu | hu
        · exact hproc u hu
        · simp only [List.mem_singleton] at hu
          subst hu
          simp only [List.any_eq_true, beq_iff_eq] at hin
          obtain ⟨p, hp, hpe⟩ := hin
          exact ⟨p, hp, hpe⟩
      · intro p hp
        obtain ⟨h1, h2, h3⟩ := hgood p hp
        exact ⟨h1, List.mem_append_left _ h2, h3⟩
    · rw [if_neg hin]
      have hnotmem : ∀ p ∈ acc, p.1 ≠ majorK key t := by
        intro p hp he
        apply hin
        simp only [List.any_eq_true, beq_iff_eq]
        exact ⟨p, hp, he⟩
      have hTts : ∀ u ∈ ts, vle (key u) (key t) = true := by
        have h1 := hsorted
        rw [hfull] at h1
        exact (List.pairwise_cons.1 (List.pairwise_append.1 h1).2.1).1
      have hmax : ∀ u ∈ full, majorK key u = majorK key t →
          vle (key u) (key t) = true := by
        intro u hu hmu
        rw [hfull] at hu
        rcases List.mem_append.1 hu with hu | hu
        · obtain ⟨p, hp, hpe⟩ := hproc u hu
          exact absurd (hpe.trans hmu) (hnotmem p hp)
        · rcases List.mem_cons.1 hu with rfl | hu
          · exact vle_refl _
          · exact hTts u hu
      have htfull : t ∈ full := by
        rw [hfull]
        exact List.mem_append_right _ (List.mem_cons_self t ts)
      have hdist' : (acc ++ [(majorK key t, t)]).Pairwise
          (fun p q => p.1 ≠ q.1) := by
        rw [List.pairwise_append]
        refine ⟨hdist, by simp, ?_⟩
        intro p hp q hq
        simp only [List.mem_singleton] at hq
        subst hq
        exact hnotmem p hp
      have hgood' : ∀ p ∈ acc ++ [(majorK key t, t)],
          p.1 = majorK key p.2 ∧ p.2 ∈ processed ++ [t] ∧
          ∀ u ∈ full, majorK key u = p.1 → vle (key u) (key p.2) = true := by
        intro p hp
        rcases List.mem_append.1 hp with hp | hp
        · obtain ⟨h1, h2, h3⟩ := hgood p hp
          exact ⟨h1, List.mem_append_left _ h2, h3⟩
        · simp only [List.mem_singleton] at hp
          subst hp
          exact ⟨rfl, List.mem_append_right _ (by simp), hmax⟩
      by_cases hstop : maxCount ≤ (acc ++ [(majorK key t, t)]).length
      · rw [if_pos hstop]
        refine ⟨hdist', ?_, ?_⟩
        · intro p hp
          obtain ⟨h1, h2, h3⟩ := hgood' p hp
          refine ⟨h1, ?_, h3⟩
          rcases List.mem_append.1 h2 with h2 | h2
          · rw [hfull]; exact List.mem_append_left _ h2
          · simp only [List.mem_singleton] at h2
            subst h2
            exact htfull
        · simp only [List.length_append, List.length_singleton]
          omega
      · rw [if_neg hstop]
        refine ih (acc ++ [(majorK key t, t)]) (processed ++ [t]) ?_ ?_
          hdist' hgood' (by simp at hstop ⊢; omega)
        · rw [hfull]; simp
        · intro u hu
          rcases List.mem_append.1 hu with hu | hu
          · obtain ⟨p, hp, hpe⟩ := hproc u hu
            exact ⟨p, List.mem_append_left _ hp, hpe⟩
          · simp only [List.mem_singleton] at hu
            rw [hu]
            exact ⟨(majorK key t, t), List.mem_append_right _ (by simp), rfl⟩

theorem processTags_spec (key : String → List Nat) (maxCount : Nat)
    (l : List String) (hmc : 1 ≤ maxCount) :
    (processTags key maxCount l).Pairwise
      (fun a b => majorK key a ≠ majorK key b) ∧
    (∀ t ∈ processTags key maxCount l, t ∈ l.dedup ∧
      ∀ s ∈ l.dedup, majorK key s = majorK key t →
        vle (key s) (key t) = true) ∧
    (processTags key maxCount l).Pairwise
      (fun a b => vle (key b) (key a) = true) ∧
    (processTags key maxCount l).length ≤ maxCount := by
  have htotal : IsTotal String (fun a b => vle (key b) (key a) = true) := by
    constructor
    intro a b
    exact vle_total (key b) (key a)
  have htrans : IsTrans String (fun a b => vle (key b) (key a) = true) := by
    constructor
    intro a b c h1 h2
    exact vle_trans h2 h1
  have hsorted : (sortTagsDesc key l.dedup).Pairwise
      (fun a b => vle (key b) (key a) = true) :=
    @List.sorted_insertionSort String
      (fun a b => vle (key b) (key a) = true) _ htotal htrans l.dedup
  have hpick := pickMajors_invariant key maxCount (sortTagsDesc key l.dedup)
    hsorted (sortTagsDesc key l.dedup) [] [] (by simp) (by simp) (by simp)
    (by simp) (by simp only [List.length_nil]; omega)
  obtain ⟨hpdist, hpgood, hplen⟩ := hpick
  have hperm : (processTags key maxCount l).Perm
      ((pickMajors key maxCount (sortTagsDesc key l.dedup) []).map (·.2)) := by
    simpa [processTags, sortTagsDesc] using
      List.perm_insertionSort
        (fun a b => vle (key b) (key a) = true)
        ((pickMajors key maxCount (sortTagsDesc key l.dedup) []).map (·.2))
  refine ⟨?_, ?_, ?_, ?_⟩
  · have hmajors : ((pickMajors key maxCount (sortTagsDesc key l.dedup)
        []).map (·.2)).Pairwise (fun a b => majorK key a ≠ majorK key b) := by
      rw [List.pairwise_map]
      refine List.Pairwise.imp_of_mem ?_ hpdist
      intro p q hp hq hne
      rw [(hpgood p hp).1, (hpgood q hq).1] at hne
      exact hne
    exact (hperm.pairwise_iff (fun h => Ne.symm h)).2 hmajors
  · intro t ht
    have ht' : t ∈ (pickMajors key maxCount (sortTagsDesc key l.dedup)
        []).map (·.2) := hperm.mem_iff.1 ht
    obtain ⟨p, hp, rfl⟩ := List.mem_map.1 ht'
    obtain ⟨h1, h2, h3⟩ := hpgood p hp
    constructor
    · simpa [sortTagsDesc] using h2
    · intro s hs hms
      have hs' : s ∈ sortTagsDesc key l.dedup := by
        simpa [sortTagsDesc] using hs
      exact h3 s hs' (by rw [hms, h1])
  · have := @List.sorted_insertionSort String
      (fun a b => vle (key b) (key a) = true) _ htotal htrans
      ((pickMajors key maxCount (sortTagsDesc key l.dedup) []).map (·.2))
    simpa [processTags, sortTagsDesc] using this
  · have hlen := hperm.length_eq
    rw [List.length_map] at hlen
    omega

theorem vcmp_ne_eq_symm {x y : List Nat} (h : vcmp x y ≠ .eq) :
    vcmp y x ≠ .eq := by
  intro he
  apply h
  rw [vcmp_swap] at he
  cases h0 : vcmp x y <;> simp [h0, Ordering.swap] at he ⊢

/-! ## Claim theorems -/

/-- C1: for every installed version, catalog and optional target, the
upgrade plan computed by `run_update_process` is strictly ascending by
parsed version, every element is strictly greater than the installed
version, every element is at most the target when one is supplied, and
the plan contains the target itself.  The catalog hypothesis `hdist`
(pairwise distinct parsed versions) is the invariant of the catalogs the
caller passes in (`fetch_nextcloud_fpm_versions` keeps at most one tag
per major); the target hypothesis reflects that the interactive prompt
only offers elements of the already-computed update path. -/
theorem c1_plan_sound (catalog : List String) (installed : String)
    (target : Option String) (path : List String)
    (hpath : buildPath catalog installed = some path)
    (hdist : catalog.Pairwise fun a b => vcmp (keyFpm a) (keyFpm b) ≠ .eq)
    (htgt : ∀ t, target = some t → t ∈ path) :
    computePlan catalog installed target =
      some (sortPlan (applyTargetFilter path target)) ∧
    (sortPlan (applyTargetFilter path target)).Pairwise
      (fun a b => vlt (keyFpm a) (keyFpm b) = true) ∧
    (∀ v ∈ sortPlan (applyTargetFilter path target),
      vlt (keyFpm installed) (keyFpm v) = true) ∧
    (∀ t, target = some t →
      (∀ v ∈ sortPlan (applyTargetFilter path target),
        vle (keyFpm v) (keyFpm t) = true) ∧
      t ∈ sortPlan (applyTargetFilter path target)) := by
  have hperm : (sortPlan (applyTargetFilter path target)).Perm
      (applyTargetFilter path target) :=
    List.perm_insertionSort _ _
  have hp2path : (applyTargetFilter path target).Sublist path := by
    cases target with
    | none => exact List.Sublist.refl path
    | some t => exact List.filter_sublist path
  have hpathcat : path.Sublist catalog := buildPath_sublist catalog installed path hpath
  have htotal : IsTotal String (fun a b => vle (keyFpm a) (keyFpm b) = true) := by
    constructor
    intro a b
    exact vle_total (keyFpm a) (keyFpm b)
  have htrans : IsTrans String (fun a b => vle (keyFpm a) (keyFpm b) = true) := by
    constructor
    intro a b c h1 h2
    exact vle_trans h1 h2
  have hle : (sortPlan (applyTargetFilter path target)).Pairwise
      (fun a b => vle (keyFpm a) (keyFpm b) = true) :=
    @List.sorted_insertionSort String
      (fun a b => vle (keyFpm a) (keyFpm b) = true) _ htotal htrans
      (applyTargetFilter path target)
  have hne : (sortPlan (applyTargetFilter path target)).Pairwise
      (fun a b => vcmp (keyFpm a) (keyFpm b) ≠ .eq) := by
    have h2 : (applyTargetFilter path target).Pairwise
        (fun a b => vcmp (keyFpm a) (keyFpm b) ≠ .eq) :=
      List.Pairwise.sublist (hp2path.trans hpathcat) hdist
    exact (hperm.pairwise_iff (fun h => vcmp_ne_eq_symm h)).2 h2
  refine ⟨by simp [computePlan, hpath], ?_, ?_, ?_⟩
  · exact (hle.and hne).imp fun h => vlt_of_vle_of_ne h.1 h.2
  · intro v hv
    have hvpath : v ∈ path :=
      hp2path.subset (hperm.mem_iff.1 hv)
    obtain ⟨kv, ki, h1, h2, h3⟩ :=
      buildPath_mem catalog installed path v hpath hvpath
    simpa [keyFpm, h1, h2] using h3
  · intro t ht
    subst ht
    constructor
    · intro v hv
      have hvp2 : v ∈ applyTargetFilter path (some t) := hperm.mem_iff.1 hv
      simp only [applyTargetFilter] at hvp2
      exact (List.mem_filter.1 hvp2).2
    · have htp : t ∈ path := htgt t rfl
      have : t ∈ applyTargetFilter path (some t) := by
        simp only [applyTargetFilter]
        exact List.mem_filter.2 ⟨htp, vle_refl _⟩
      exact hperm.mem_iff.2 this

theorem c1_plan_sound_witness :
    computePlan ["21-fpm", "20-fpm", "19-fpm", "18-fpm"] "18-fpm"
        (some "20-fpm") =
      some (sortPlan (applyTargetFilter ["21-fpm", "20-fpm", "19-fpm"]
        (some "20-fpm"))) ∧
    "20-fpm" ∈ sortPlan (applyTargetFilter ["21-fpm", "20-fpm", "19-fpm"]
        (some "20-fpm")) := by
  have h := c1_plan_sound ["21-fpm", "20-fpm", "19-fpm", "18-fpm"] "18-fpm"
    (some "20-fpm") ["21-fpm", "20-fpm", "19-fpm"]
    (by decide) (by decide) (by intro t ht; cases ht; decide)
  exact ⟨h.1, (h.2.2.2 "20-fpm" rfl).2⟩

/-- C2: for every sequence of registry responses (duplicate tags and
several patch versions per major included), the list returned by
`fetch_nextcloud_fpm_versions` / `fetch_semver_versions` holds at most
one tag per major version, each returned tag parses to the highest
version among the surviving (filtered, validated, deduplicated) tags of
its major, the list is sorted descending by parsed version, and it is
capped at `maxDistinctMajors` entries (10 for the FPM variant, the
`max_count` argument otherwise). -/
theorem c2_catalog_buckets (pages : Nat → Except Unit RegPage) :
    (∀ tags n, fetchGo fpmTagOk pages 100 1 [] 0 = .ok (tags, n) →
      (fetchNextcloudFpmVersions pages).Pairwise
        (fun a b => majorK keyFpm a ≠ majorK keyFpm b) ∧
      (∀ t ∈ fetchNextcloudFpmVersions pages, t ∈ tags.dedup ∧
        ∀ s ∈ tags.dedup, majorK keyFpm s = majorK keyFpm t →
          vle (keyFpm s) (keyFpm t) = true) ∧
      (fetchNextcloudFpmVersions pages).Pairwise
        (fun a b => vle (keyFpm b) (keyFpm a) = true) ∧
      (fetchNextcloudFpmVersions pages).length ≤ 10) ∧
    (∀ subs maxCount, 1 ≤ maxCount →
      ∀ tags n, fetchGo (semverTagOk subs) pages 100 1 [] 0 = .ok (tags, n) →
      (fetchSemverVersions subs maxCount pages).Pairwise
        (fun a b => majorK keySem a ≠ majorK keySem b) ∧
      (∀ t ∈ fetchSemverVersions subs maxCount pages, t ∈ tags.dedup ∧
        ∀ s ∈ tags.dedup, majorK keySem s = majorK keySem t →
          vle (keySem s) (keySem t) = true) ∧
      (fetchSemverVersions subs maxCount pages).Pairwise
        (fun a b => vle (keySem b) (keySem a) = true) ∧
      (fetchSemverVersions subs maxCount pages).length ≤ maxCount) := by
  constructor
  · intro tags n h
    have he : fetchNextcloudFpmVersions pages = processTags keyFpm 10 tags := by
      simp [fetchNextcloudFpmVersions, h]
    rw [he]
    exact processTags_spec keyFpm 10 tags (by omega)
  · intro subs maxCount hmc tags n h
    have he : fetchSemverVersions subs maxCount pages =
        processTags keySem maxCount tags := by
      simp [fetchSemverVersions, h]
    rw [he]
    exact processTags_spec keySem maxCount tags hmc

/-- A concrete registry fixture: one page, no further cursor. -/
def pagesW : Nat → Except Unit RegPage :=
  fun _ => .ok ⟨["28.0.1-fpm", "28.0.0-fpm", "29.0.0-fpm"], false⟩

theorem c2_catalog_buckets_witness :
    (fetchNextcloudFpmVersions pagesW).Pairwise
      (fun a b => majorK keyFpm a ≠ majorK keyFpm b) ∧
    (fetchNextcloudFpmVersions pagesW).length ≤ 10 ∧
    (fetchSemverVersions ["rc"] 10 pagesW).length ≤ 10 := by
  have hgo : fetchGo fpmTagOk pagesW 100 1 [] 0 =
      .ok (["28.0.1-fpm", "28.0.0-fpm", "29.0.0-fpm"], 1) := by rfl
  have hgo2 : fetchGo (semverTagOk ["rc"]) pagesW 100 1 [] 0 =
      .ok ([], 1) := by rfl
  have h := (c2_catalog_buckets pagesW).1
    ["28.0.1-fpm", "28.0.0-fpm", "29.0.0-fpm"] 1 hgo
  have h2 := (c2_catalog_buckets pagesW).2 ["rc"] 10 (by omega) [] 1 hgo2
  exact ⟨h.1, h.2.2.2, h2.2.2.2⟩

/-- C3: if the detected installed version fails to parse (for example the
sentinel `"unknown"` returned by `detect_version`), the version
comparison inside the planning `try` block raises, the handler reports
the error and `run_update_process` returns: the outcome is a plan error,
the compose file is untouched and no step event is emitted.  The
nonempty-catalog hypothesis is what makes the comparison (and hence the
failure) actually happen; on an empty catalog the run also stops before
any mutation, with an empty plan. -/
theorem c3_unparseable_installed (catalog : List String) (installed : String)
    (target : Option String) (env : Nat → StepEnv) (file : FileState)
    (hbad : parseCore? installed = none) (hne : catalog ≠ []) :
    runUpdateProcess installed catalog target env file =
      (.planError, file, []) := by
  obtain ⟨v, rest, rfl⟩ := List.exists_cons_of_ne_nil hne
  have h := buildPath_inst_none v rest installed hbad
  simp [runUpdateProcess, computePlan, h]

/-- Per-step oracle in which every external operation succeeds. -/
def envAllOk : Nat → StepEnv :=
  fun _ => ⟨true, true, some "cid", true, true, true⟩

/-- The services table of the concrete compose fixture. -/
def svcs0 : List (String × List (String × YVal)) :=
  [("nextcloud-fpm", [("image", .str "nextcloud:18-fpm"),
     ("restart", .str "unless-stopped"), ("volumes", .blob 0)]),
   ("nextcloud-cron", [("image", .str "nextcloud:18-fpm"),
     ("entrypoint", .str "/cron.sh")])]

/-- A concrete well-formed compose document. -/
def doc0 : ComposeDoc := ⟨some svcs0, [("version", .str "3")]⟩

theorem c3_unparseable_installed_witness :
    parseCore? "unknown" = none ∧
    runUpdateProcess "unknown" ["29.0.0-fpm"] none envAllOk (.ok doc0) =
      (.planError, .ok doc0, []) :=
  ⟨by decide,
    c3_unparseable_installed ["29.0.0-fpm"] "unknown" none envAllOk
      (.ok doc0) (by decide) (by decide)⟩

/-- C9: on a well-formed document whose services mapping does not contain
the named service, `update_docker_compose_images` writes the document
back unchanged (no entry added, no image touched) and returns no
previous image reference; the absent service raises nothing. -/
theorem c9_absent_service_noop (ver svc : String) (doc : ComposeDoc)
    (habs : svcLookup (.ok doc) svc = none) :
    updateDockerComposeImages ver svc (.ok doc) = (.ok doc, none) := by
  obtain ⟨os, rest⟩ := doc
  cases os with
  | none => rfl
  | some svcs =>
    simp only [svcLookup] at habs
    have hany : (svcs.any fun p => p.1 == svc) = false := by
      rw [any_eq_lookup_isSome, habs]
      rfl
    simp [updateDockerComposeImages, hany]

theorem c9_absent_service_noop_witness :
    svcLookup (.ok doc0) "nextcloud-redis" = none ∧
    updateDockerComposeImages "7.4.1" "nextcloud-redis" (.ok doc0) =
      (.ok doc0, none) :=
  ⟨by decide,
    c9_absent_service_noop "7.4.1" "nextcloud-redis" doc0 (by decide)⟩

/-- C10: on a well-formed document whose services mapping contains the
named service, `update_docker_compose_images` rewrites only the `image`
field of that service to `nextcloud:<new version>`: the top-level
remainder of the document, every other service entry, and every other
field of the named service are written back unchanged (and the Python
function still returns `None`). -/
theorem c10_present_service_frame (ver svc : String) (doc : ComposeDoc)
    (svcs : List (String × List (String × YVal)))
    (hs : doc.services = some svcs)
    (hpresent : (svcs.any fun p => p.1 == svc) = true) :
    updateDockerComposeImages ver svc (.ok doc) =
      (.ok ⟨some (updateServiceImage svcs svc ver), doc.rest⟩, none) ∧
    (updateServiceImage svcs svc ver).length = svcs.length ∧
    ∀ i (hi : i < svcs.length) (hi' : i < (updateServiceImage svcs svc ver).length),
      ((updateServiceImage svcs svc ver)[i]).1 = (svcs[i]).1 ∧
      ((svcs[i]).1 ≠ svc → (updateServiceImage svcs svc ver)[i] = svcs[i]) ∧
      ((svcs[i]).1 = svc →
        ((updateServiceImage svcs svc ver)[i]).2.lookup "image" =
          some (.str ("nextcloud:" ++ ver)) ∧
        ∀ k, k ≠ "image" →
          ((updateServiceImage svcs svc ver)[i]).2.lookup k =
            (svcs[i]).2.lookup k) := by
  obtain ⟨os, rest⟩ := doc
  simp only at hs
  subst hs
  refine ⟨by simp [updateDockerComposeImages, hpresent], by
    simp [updateServiceImage], ?_⟩
  intro i hi hi'
  have hm : (updateServiceImage svcs svc ver)[i] =
      (if (svcs[i]).1 = svc
        then ((svcs[i]).1, setField (svcs[i]).2 "image"
          (.str ("nextcloud:" ++ ver)))
        else svcs[i]) := by
    simp [updateServiceImage]
  by_cases hc : (svcs[i]).1 = svc
  · rw [hm, if_pos hc]
    refine ⟨rfl, fun hne => absurd hc hne, fun _ => ⟨?_, ?_⟩⟩
    · exact lookup_setField_self _ _ _
    · intro k hk
      exact lookup_setField_other _ _ _ _ hk
  · rw [hm, if_neg hc]
    exact ⟨rfl, fun _ => rfl, fun he => absurd he hc⟩

theorem c10_present_service_frame_witness :
    updateDockerComposeImages "19-fpm" "nextcloud-fpm" (.ok doc0) =
      (.ok ⟨some (updateServiceImage svcs0 "nextcloud-fpm" "19-fpm"),
        [("version", .str "3")]⟩, none) ∧
    ((updateServiceImage svcs0 "nextcloud-fpm" "19-fpm").get
        ⟨0, by decide⟩).2.lookup "image" =
      some (.str ("nextcloud:" ++ "19-fpm")) ∧
    ((updateServiceImage svcs0 "nextcloud-fpm" "19-fpm").get
        ⟨0, by decide⟩).2.lookup "restart" =
      ((svcs0.get ⟨0, by decide⟩).2.lookup "restart") := by
  have h := c10_present_service_frame "19-fpm" "nextcloud-fpm" doc0 svcs0
    rfl (by decide)
  have h0 := (h.2.2 0 (by decide) (by decide)).2.2 (by decide)
  exact ⟨h.1, h0.1, h0.2 "restart" (by decide)⟩

theorem runSteps_error_state (env : Nat → StepEnv) :
    ∀ (plan : List String) (i : Nat),
      (runSteps env plan i (.error ())).2.1 = .error () := by
  intro plan
  induction plan with
  | nil => intro i; rfl
  | cons v rest ih =>
    intro i
    simp only [runSteps]
    by_cases hdown : (env i).downOk = true
    · simp only [hdown, if_true]
      by_cases hup : (env i).upOk = true
      · simp only [hup, if_true]
        exact ih (i + 1)
      · simp [hup, updateDCI_error]
    · simp [hdown]

/-- C5: when `docker-compose up -d` fails at some step `k` (all earlier
steps having succeeded), `run_update_process` prints the error and
returns: the run is aborted at step `k`, no event of any later step is
ever emitted, and the persisted compose document holds the image tag of
step `k` for both `nextcloud-fpm` and `nextcloud-cron` — the mutation
written for the failing step persists, later steps' tags are never
written. -/
theorem c5_start_failure_aborts (catalog : List String) (installed : String)
    (target : Option String) (env : Nat → StepEnv) (doc : ComposeDoc)
    (plan : List String) (k : Nat) (vk : String)
    (hplan : computePlan catalog installed target = some plan)
    (hk1 : 1 ≤ k) (hkv : plan[k - 1]? = some vk)
    (hfpm : (svcLookup (.ok doc) "nextcloud-fpm").isSome = true)
    (hcron : (svcLookup (.ok doc) "nextcloud-cron").isSome = true)
    (hpre : ∀ j, 1 ≤ j → j < k → (env j).downOk = true ∧ (env j).upOk = true)
    (hdk : (env k).downOk = true) (huk : (env k).upOk = false) :
    (runUpdateProcess installed catalog target env (.ok doc)).1 =
      .aborted k ∧
    (∀ e ∈ (runUpdateProcess installed catalog target env (.ok doc)).2.2,
      e.stepOf ≤ k) ∧
    svcImage (runUpdateProcess installed catalog target env (.ok doc)).2.1
      "nextcloud-fpm" = some (.str ("nextcloud:" ++ vk)) ∧
    svcImage (runUpdateProcess installed catalog target env (.ok doc)).2.1
      "nextcloud-cron" = some (.str ("nextcloud:" ++ vk)) := by
  have hne : plan ≠ [] := by
    intro hnil
    rw [hnil] at hkv
    simp at hkv
  have hrun : runUpdateProcess installed catalog target env (.ok doc) =
      runSteps env plan 1 (.ok doc) := by
    simp [runUpdateProcess, hplan, hne]
  rw [hrun]
  exact runSteps_abort env plan 1 (.ok doc) k vk hfpm hcron hk1 hkv hpre hdk huk

/-- Per-step oracle in which the stack starts but `docker-compose up -d`
fails on every step. -/
def envUpFail : Nat → StepEnv :=
  fun _ => ⟨true, false, some "cid", true, true, true⟩

theorem c5_start_failure_aborts_witness :
    (runUpdateProcess "18-fpm" ["19-fpm"] none envUpFail (.ok doc0)).1 =
      .aborted 1 ∧
    svcImage (runUpdateProcess "18-fpm" ["19-fpm"] none envUpFail
      (.ok doc0)).2.1 "nextcloud-fpm" =
      some (.str ("nextcloud:" ++ "19-fpm")) := by
  have h := c5_start_failure_aborts ["19-fpm"] "18-fpm" none envUpFail doc0
    ["19-fpm"] 1 "19-fpm" (by rfl) (by omega) (by rfl) (by decide) (by decide)
    (by intro j h1 h2; omega) (by rfl) (by rfl)
  exact ⟨h.1, h.2.2.1⟩

/-- C4 counterexample: a concrete run on an unparseable compose document.
`update_docker_compose_images` catches the parse exception, reports it
and returns, and `run_update_process` then proceeds with the remainder
of the step regardless: the containers are started (`Ev.up 1`), the
readiness poll runs (`Ev.waitReady 1`), the maintenance commands execute
(`Ev.occRun 1`), and the run finishes — refuting the claim that the
corrupt document is fatal and that the orchestrator does not proceed. -/
theorem c4_counterexample :
    (runUpdateProcess "18-fpm" ["19-fpm"] none envAllOk (.error ())).1 =
      .finished ∧
    (runUpdateProcess "18-fpm" ["19-fpm"] none envAllOk (.error ())).2.1 =
      .error () ∧
    Ev.up 1 ∈
      (runUpdateProcess "18-fpm" ["19-fpm"] none envAllOk (.error ())).2.2 ∧
    Ev.waitReady 1 ∈
      (runUpdateProcess "18-fpm" ["19-fpm"] none envAllOk (.error ())).2.2 ∧
    Ev.occRun 1 occCmd1 ∈
      (runUpdateProcess "18-fpm" ["19-fpm"] none envAllOk (.error ())).2.2 :=
  ⟨rfl, rfl, by decide, by decide, by decide⟩

/-- C4 (amended): a malformed persisted compose document is not fatal.
`update_docker_compose_images` swallows the exception and leaves the
file unchanged, and the step loop still performs every remaining phase
of every step (start, readiness wait, maintenance) and completes the
run; the document simply stays unparseable throughout. -/
theorem c4_amended_malformed_nonfatal (ver svc : String)
    (env : Nat → StepEnv) (plan : List String) (i : Nat)
    (hgood : ∀ j, (env j).downOk = true ∧ (env j).upOk = true) :
    updateDockerComposeImages ver svc (.error ()) = (.error (), none) ∧
    (runSteps env plan i (.error ())).1 = .finished ∧
    (runSteps env plan i (.error ())).2.1 = .error () ∧
    ∀ k v, plan[k]? = some v →
      Ev.complete (i + k) v ∈ (runSteps env plan i (.error ())).2.2 := by
  refine ⟨rfl, ?_, runSteps_error_state env plan i, ?_⟩
  · exact (runSteps_finished env hgood plan i _).1
  · exact (runSteps_finished env hgood plan i _).2

theorem c4_amended_malformed_nonfatal_witness :
    updateDockerComposeImages "19-fpm" "nextcloud-fpm" (.error ()) =
      (.error (), none) ∧
    (runSteps envAllOk ["19-fpm"] 1 (.error ())).1 = .finished ∧
    Ev.complete (1 + 0) "19-fpm" ∈
      (runSteps envAllOk ["19-fpm"] 1 (.error ())).2.2 := by
  have h := c4_amended_malformed_nonfatal "19-fpm" "nextcloud-fpm" envAllOk
    ["19-fpm"] 1 (by intro j; exact ⟨rfl, rfl⟩)
  exact ⟨h.1, h.2.1, h.2.2.2 0 "19-fpm" (by rfl)⟩

/-- Per-step oracle in which containers run fine but the first occ
maintenance command exits non-zero. -/
def envOcc1Fail : Nat → StepEnv :=
  fun _ => ⟨true, true, some "cid", false, true, true⟩

/-- C6 counterexample: a concrete step in which the first maintenance
command (`occ db:add-missing-indices`) exits non-zero.  `check=True`
raises inside the single `try` of `run_occ_commands`, so the repair and
upgrade commands are never executed (and neither inter-command delay
happens) — refuting the claim that all three commands are executed in
order in that situation.  The non-fatality half of the claim does hold:
the step is still declared complete and the run finishes. -/
theorem c6_counterexample :
    (runUpdateProcess "18-fpm" ["19-fpm"] none envOcc1Fail (.ok doc0)).1 =
      .finished ∧
    Ev.occRun 1 occCmd1 ∈
      (runUpdateProcess "18-fpm" ["19-fpm"] none envOcc1Fail (.ok doc0)).2.2 ∧
    Ev.occRun 1 occCmd2 ∉
      (runUpdateProcess "18-fpm" ["19-fpm"] none envOcc1Fail (.ok doc0)).2.2 ∧
    Ev.occRun 1 occCmd3 ∉
      (runUpdateProcess "18-fpm" ["19-fpm"] none envOcc1Fail (.ok doc0)).2.2 ∧
    Ev.complete 1 "19-fpm" ∈
      (runUpdateProcess "18-fpm" ["19-fpm"] none envOcc1Fail (.ok doc0)).2.2 :=
  ⟨rfl, by decide, by decide, by decide, by decide⟩

/-- C6 (amended): when all three maintenance commands exit zero they run
strictly in order with a 60-second delay after the first and after the
second; a non-zero exit of the first (or second) command skips the
remaining maintenance commands and delays of that step, and a non-zero
exit of any of the three is non-fatal to the run: whatever the occ
outcomes and container lookup results, every step is declared complete
and the loop continues to the next step, finishing the run. -/
theorem c6_amended_occ_commands (i : Nat) (o2 : Bool)
    (env : Nat → StepEnv) (plan : List String) (f : FileState)
    (hgood : ∀ j, (env j).downOk = true ∧ (env j).upOk = true) :
    runOccCommands i true true =
      [.occRun i occCmd1, .sleepFor i 60, .occRun i occCmd2,
       .sleepFor i 60, .occRun i occCmd3] ∧
    runOccCommands i false o2 = [.occRun i occCmd1] ∧
    runOccCommands i true false =
      [.occRun i occCmd1, .sleepFor i 60, .occRun i occCmd2] ∧
    (runSteps env plan 1 f).1 = .finished ∧
    ∀ k v, plan[k]? = some v →
      Ev.complete (1 + k) v ∈ (runSteps env plan 1 f).2.2 := by
  refine ⟨rfl, rfl, rfl, ?_, ?_⟩
  · exact (runSteps_finished env hgood plan 1 f).1
  · exact (runSteps_finished env hgood plan 1 f).2

theorem c6_amended_occ_commands_witness :
    runOccCommands 1 true true =
      [.occRun 1 occCmd1, .sleepFor 1 60, .occRun 1 occCmd2,
       .sleepFor 1 60, .occRun 1 occCmd3] ∧
    (runSteps envOcc1Fail ["19-fpm"] 1 (.ok doc0)).1 = .finished := by
  have h := c6_amended_occ_commands 1 false envOcc1Fail ["19-fpm"] (.ok doc0)
    (by intro j; exact ⟨rfl, rfl⟩)
  exact ⟨h.1, h.2.2.2.1⟩

theorem pickMajors_snd_mem (key : String → List Nat) (mc : Nat) :
    ∀ (rest : List String) (acc : List (Nat × String)),
      ∀ p ∈ pickMajors key mc rest acc, p ∈ acc ∨ p.2 ∈ rest := by
  intro rest
  induction rest with
  | nil =>
    intro acc p hp
    simp only [pickMajors] at hp
    exact Or.inl hp
  | cons t ts ih =>
    intro acc p hp
    simp only [pickMajors] at hp
    by_cases hin : (acc.any fun q => q.1 == majorK key t) = true
    · rw [if_pos hin] at hp
      by_cases hstop : mc ≤ acc.length
      · rw [if_pos hstop] at hp
        exact Or.inl hp
      · rw [if_neg hstop] at hp
        rcases ih acc p hp with h | h
        · exact Or.inl h
        · exact Or.inr (List.mem_cons_of_mem t h)
    · rw [if_neg hin] at hp
      by_cases hstop : mc ≤ (acc ++ [(majorK key t, t)]).length
      · rw [if_pos hstop] at hp
        rcases List.mem_append.1 hp with h | h
        · exact Or.inl h
        · simp only [List.mem_singleton] at h
          subst h
          exact Or.inr (List.mem_cons_self t ts)
      · rw [if_neg hstop] at hp
        rcases ih (acc ++ [(majorK key t, t)]) p hp with h | h
        · rcases List.mem_append.1 h with h | h
          · exact Or.inl h
          · simp only [List.mem_singleton] at h
            subst h
            exact Or.inr (List.mem_cons_self t ts)
        · exact Or.inr (List.mem_cons_of_mem t h)

theorem processTags_subset (key : String → List Nat) (mc : Nat)
    (l : List String) : ∀ t ∈ processTags key mc l, t ∈ l := by
  intro t ht
  simp only [processTags, sortTagsDesc] at ht
  rw [List.mem_insertionSort] at ht
  obtain ⟨p, hp, rfl⟩ := List.mem_map.1 ht
  rcases pickMajors_snd_mem key mc (List.insertionSort _ l.dedup) [] p hp with
    h | h
  · simp at h
  · rw [List.mem_insertionSort] at h
    exact List.mem_dedup.1 h

/-- C7: the fetch functions never raise (they are total functions of the
response oracle), and every failure during tag fetching — a transport
error, non-2xx response or malformed body, all modelled as an `.error`
response, at any page the pagination loop actually reaches — makes the
whole call return the empty list; moreover a tag that fails the
substring deny-list or fails semantic-version parsing after suffix
stripping never appears in the returned list.  "Reaches page `p`" is
spelled out as the loop-continuation conditions: every earlier page
responded successfully with a nonempty result list and a `next` cursor,
and fewer than 100 tags were collected before `p` (`p = 1` with no
earlier pages is the first-request case). -/
theorem c7_fetch_failures (pages : Nat → Except Unit RegPage) :
    (∀ t ∈ fetchNextcloudFpmVersions pages, fpmTagOk t = true) ∧
    (∀ p, 1 ≤ p → p ≤ 100 →
      (∀ q, 1 ≤ q → q < p →
        ∃ pg, pages q = .ok pg ∧ pg.results ≠ [] ∧ pg.next = true) →
      (collectedTags fpmTagOk pages (p - 1)).length < 100 →
      pages p = .error () →
      fetchNextcloudFpmVersions pages = []) ∧
    ∀ subs maxCount,
      (∀ t ∈ fetchSemverVersions subs maxCount pages,
        semverTagOk subs t = true) ∧
      (∀ p, 1 ≤ p → p ≤ 100 →
        (∀ q, 1 ≤ q → q < p →
          ∃ pg, pages q = .ok pg ∧ pg.results ≠ [] ∧ pg.next = true) →
        (collectedTags (semverTagOk subs) pages (p - 1)).length < 100 →
        pages p = .error () →
        fetchSemverVersions subs maxCount pages = []) := by
  refine ⟨?_, ?_, ?_⟩
  · intro t ht
    cases h : fetchGo fpmTagOk pages 100 1 [] 0 with
    | error e =>
      simp [fetchNextcloudFpmVersions, h] at ht
    | ok r =>
      obtain ⟨tags, n⟩ := r
      rw [show fetchNextcloudFpmVersions pages = processTags keyFpm 10 tags by
        simp [fetchNextcloudFpmVersions, h]] at ht
      exact fetchGo_ok_mem fpmTagOk pages 100 1 0 [] tags n (by simp) h t
        (processTags_subset keyFpm 10 tags t ht)
  · intro p hp1 hp100 hbefore hlen hfail
    have herr := fetchGo_error_reached fpmTagOk pages p 100 1 0 rfl rfl hp1
      hp100 (fun q hq1 hq2 => hbefore q hq1 hq2) hlen hfail
    simp only [collectedTags] at herr
    simp [fetchNextcloudFpmVersions, herr]
  · intro subs maxCount
    constructor
    · intro t ht
      cases h : fetchGo (semverTagOk subs) pages 100 1 [] 0 with
      | error e =>
        simp [fetchSemverVersions, h] at ht
      | ok r =>
        obtain ⟨tags, n⟩ := r
        rw [show fetchSemverVersions subs maxCount pages =
            processTags keySem maxCount tags by
          simp [fetchSemverVersions, h]] at ht
        exact fetchGo_ok_mem (semverTagOk subs) pages 100 1 0 [] tags n
          (by simp) h t (processTags_subset keySem maxCount tags t ht)
    · intro p hp1 hp100 hbefore hlen hfail
      have herr := fetchGo_error_reached (semverTagOk subs) pages p 100 1 0
        rfl rfl hp1 hp100 (fun q hq1 hq2 => hbefore q hq1 hq2) hlen hfail
      simp only [collectedTags] at herr
      simp [fetchSemverVersions, herr]

/-- A response oracle whose first page succeeds (nonempty, with a `next`
cursor) and whose second request fails: a transport failure in the
middle of pagination. -/
def pagesErr2 : Nat → Except Unit RegPage :=
  fun p => if p = 1 then .ok ⟨["29.0.0-fpm"], true⟩ else .error ()

theorem c7_fetch_failures_witness :
    fetchNextcloudFpmVersions pagesErr2 = [] ∧
    fetchSemverVersions ["rc"] 10 pagesErr2 = [] := by
  have h := c7_fetch_failures pagesErr2
  have hbefore : ∀ q, 1 ≤ q → q < 2 →
      ∃ pg, pagesErr2 q = .ok pg ∧ pg.results ≠ [] ∧ pg.next = true := by
    intro q h1 h2
    have hq : q = 1 := by omega
    subst hq
    exact ⟨⟨["29.0.0-fpm"], true⟩, rfl, by decide, rfl⟩
  refine ⟨h.2.1 2 (by omega) (by omega) hbefore (by decide) rfl, ?_⟩
  exact (h.2.2 ["rc"] 10).2 2 (by omega) (by omega) hbefore (by decide) rfl

/-- A response oracle whose every page is full (50 valid tags) and
advertises a further page. -/
def pagesFull : Nat → Except Unit RegPage :=
  fun _ => .ok ⟨List.replicate 50 "19.0.0-fpm", true⟩

/-- C8 counterexample: against `pagesFull` the loop stops after two
requests — the claim's three stopping conditions all fail at that point
(page 2 is nonempty, its `next` cursor is present, and 2 pages are far
below the 100-page ceiling); the loop stopped because the `while` guard
`len(all_versions) < 100` turned false after 100 collected tags, a
fourth stopping condition the claim rules out. -/
theorem c8_counterexample :
    fetchGo fpmTagOk pagesFull 100 1 [] 0 =
      .ok (List.replicate 100 "19.0.0-fpm", 2) ∧
    pagesFull 2 = .ok ⟨List.replicate 50 "19.0.0-fpm", true⟩ ∧
    List.replicate 50 "19.0.0-fpm" ≠ ([] : List String) ∧
    (2 : Nat) ≠ 100 :=
  ⟨rfl, rfl, by decide, by decide⟩

/-- C8 (amended): the tag-listing loop stops only when the last requested
page is empty, the registry reports no further page, the hard 100-page
ceiling is reached, or at least 100 surviving tags have been collected
(the `len(all_versions) < 100` conjunct of the `while` guard).  The
claim omitted the fourth condition. -/
theorem c8_amended_stop_conditions (ok : String → Bool)
    (pages : Nat → Except Unit RegPage) (tags : List String) (n : Nat)
    (h : fetchGo ok pages 100 1 [] 0 = .ok (tags, n)) :
    (∃ pg, pages n = .ok pg ∧ (pg.results = [] ∨ pg.next = false)) ∨
      n = 100 ∨ 100 ≤ tags.length :=
  fetchGo_stop ok pages 100 1 0 [] tags n rfl rfl h

theorem c8_amended_stop_conditions_witness :
    (∃ pg, pagesW 1 = .ok pg ∧ (pg.results = [] ∨ pg.next = false)) ∨
      (1 : Nat) = 100 ∨
      100 ≤ (["28.0.1-fpm", "28.0.0-fpm", "29.0.0-fpm"] : List String).length :=
  c8_amended_stop_conditions fpmTagOk pagesW
    ["28.0.1-fpm", "28.0.0-fpm", "29.0.0-fpm"] 1 (by rfl)
